import Mathlib

/-!
Verification development for the Duckpond backend (TypeScript source).

The definitions below are a shallow embedding of the parts of the source
that the verified properties are about:

* `src/backend/src/routes/chat.ts` — the `POST /api/chat` handler: user
  message extraction, the SDK message loop that tracks the in-progress
  assistant content and streams events, the error path, and the Redis
  side effects (HUD reads, squoze compaction marker write).
* `src/backend/src/parsing/jsonl.ts` — `extractDisplayMessages`.
* `src/backend/src/routes/context.ts` — the `GET /api/sessions` listing.

JavaScript strings are modelled by Lean `String`; the handful of string
operations the source uses (`trim`, `slice`, `startsWith`, `split`) are
re-implemented over `List Char` so that they evaluate by kernel
reduction.  `JSON.stringify` of an opaque tool-argument value is
modelled by carrying the serialized form itself, and Redis `SETEX`
expiry is recorded as the TTL argument of the emitted operation.
-/

/-- Character-list version of JS `String.prototype.startsWith` (first
argument: the candidate leading segment). -/
def startsC : List Char → List Char → Bool
  | [], _ => true
  | _ :: _, [] => false
  | a :: as, b :: bs => a = b && startsC as bs

/-- JS `s.startsWith(p)`. -/
def jsStarts (s p : String) : Bool := startsC p.toList s.toList

/-- JS `String.prototype.trim`: strip whitespace from both ends. -/
def jsTrim (s : String) : String :=
  (((s.toList.dropWhile Char.isWhitespace).reverse.dropWhile
      Char.isWhitespace).reverse).asString

/-- JS `s.slice(0, n)`: the first `n` characters. -/
def jsTake (s : String) (n : Nat) : String := (s.toList.take n).asString

/-- Character-list split on a separator character; models JS
`String.prototype.split` with a one-character separator. -/
def splitC (sep : Char) : List Char → List (List Char)
  | [] => [[]]
  | c :: cs =>
      let r := splitC sep cs
      if c = sep then [] :: r
      else match r with
        | [] => [[c]]
        | g :: gs => (c :: g) :: gs

/-- JS `s.split(sep)` for a one-character separator string. -/
def jsSplit (s : String) (sep : Char) : List String :=
  (splitC sep s.toList).map List.asString

/-- Lexicographic (code-unit) order on character lists; models the order
`localeCompare` induces on the ISO timestamps the session listing sorts
by. -/
def listLe : List Char → List Char → Bool
  | [], _ => true
  | _ :: _, [] => false
  | a :: as, b :: bs => if a = b then listLe as bs else decide (a < b)

/-- Code-unit string order (see `listLe`). -/
def strLe (a b : String) : Bool := listLe a.toList b.toList

/-! ## chat.ts: request body and user-message extraction -/

/-- UI content part (`chat.ts` interface `UIContentPart`): a loosely
typed part with a `type` tag and optional `text` / `image` fields. -/
structure UIContentPart where
  type : String
  text : Option String := none
  image : Option String := none
  deriving DecidableEq, Repr

/-- SDK content part (`chat.ts` interface `SDKContentPart`): text, or an
image in Claude API base64 form. -/
inductive SDKContentPart
  | text (s : String)
  | image (media_type data : String)
  deriving DecidableEq, Repr

/-- The `message` field of an assistant-ui command (`cmd.message`). -/
structure CmdMessage where
  parts : Option (List UIContentPart) := none
  content : Option (List UIContentPart) := none
  deriving DecidableEq, Repr

/-- One assistant-ui command (`chat.ts` interface `MessageCommand`). -/
structure MessageCommand where
  type : String
  message : Option CmdMessage := none
  deriving DecidableEq, Repr

/-- The `state` field of the request body (`chat.ts` interface
`ChatState`); only the session id matters to the handler logic we
verify (the message history is threaded through unchanged). -/
structure ChatState where
  sessionId : Option String := none
  deriving DecidableEq, Repr

/-- Request body of `POST /api/chat` (`chat.ts` interface
`ChatRequestBody`). -/
structure ChatRequestBody where
  state : Option ChatState := none
  commands : Option (List MessageCommand) := none
  deriving DecidableEq, Repr

/-- JS `cmd.message.parts || cmd.message.content || []` (an empty array
is truthy in JS, so a present-but-empty `parts` wins). -/
def cmdParts (cmd : MessageCommand) : List UIContentPart :=
  match cmd.message with
  | some m =>
      match m.parts with
      | some ps => ps
      | none => m.content.getD []
  | none => []

/-- Result of `extractUserMessage` (`chat.ts` lines 65-109). -/
structure Extracted where
  sdkContent : List SDKContentPart
  uiContent : List UIContentPart
  hasImages : Bool
  deriving DecidableEq, Repr

/-- Conversion of a `data:` URL to the Claude API image source
(`chat.ts` lines 88-99): `split(',', 2)` around the first comma, media
type between the first `:` and the first `;` of the header. -/
def parseDataUrl (img : String) : SDKContentPart :=
  let ps := jsSplit img ','
  let header := ps.headD ""
  let data := (ps.drop 1).headD ""
  let mt := (((jsSplit header ':').drop 1).headD "")
  SDKContentPart.image ((jsSplit mt ';').headD "") data

/-- The per-part loop of `extractUserMessage` (`chat.ts` lines 75-101):
text parts are trimmed and dropped when empty; image parts are kept for
the UI, set `hasImages`, and contribute an SDK part only when they are
`data:` URLs. -/
def extractParts : List UIContentPart → Extracted
  | [] => ⟨[], [], false⟩
  | p :: ps =>
      let r := extractParts ps
      if p.type = "text" then
        match p.text with
        | some t =>
            if jsTrim t ≠ "" then
              ⟨SDKContentPart.text (jsTrim t) :: r.sdkContent,
               ⟨"text", some (jsTrim t), none⟩ :: r.uiContent, r.hasImages⟩
            else r
        | none => r
      else if p.type = "image" then
        match p.image with
        | some img =>
            if img ≠ "" then
              ⟨(if jsStarts img "data:" then [parseDataUrl img] else [])
                 ++ r.sdkContent,
               ⟨"image", none, some img⟩ :: r.uiContent, true⟩
            else r
        | none => r
      else r

/-- `extractUserMessage` (`chat.ts` lines 65-109): the first
`add-message` command whose extracted SDK content is non-empty wins;
otherwise `null`. -/
def extractUserMessage : List MessageCommand → Option Extracted
  | [] => none
  | cmd :: rest =>
      if cmd.type = "add-message" ∧ cmd.message ≠ none then
        let ex := extractParts (cmdParts cmd)
        if ex.sdkContent ≠ [] then some ex else extractUserMessage rest
      else extractUserMessage rest

/-! ## chat.ts: the SDK message loop -/

/-- Content block of an SDK `assistant` message (`chat.ts` lines
221-251): a text fragment or a tool invocation.  The tool input is
carried in its serialized form (the source stores both `block.input`
and `JSON.stringify(block.input)`; only the serialized form matters to
the properties proved here). -/
inductive CBlock
  | text (s : String)
  | tool_use (id name input : String)
  deriving DecidableEq, Repr

/-- Content block of an SDK `user` message (`chat.ts` lines 276-288):
a tool result, or any other block (ignored by the handler). -/
inductive UBlock
  | tool_result (tool_use_id content : String) (is_error : Bool)
  | other
  deriving DecidableEq, Repr

/-- One raw SDK message as consumed by the `for await` loop (`chat.ts`
lines 215-351).  A `system` message carries its subtype and optional
`compact_metadata` `(trigger, pre_tokens)`; a `result` message carries
the final session id. -/
inductive SDKMsg
  | assistant (content : List CBlock)
  | user (content : List UBlock)
  | system (subtype : String) (compact_metadata : Option (String × Nat))
  | result (session_id : String)
  deriving DecidableEq, Repr

/-- One entry of `currentAssistantContent` (`chat.ts` lines 212,
227-247): a text part, or a tool-call part whose `result`/`isError`
fields are absent until a matching tool result is attached. -/
inductive APart
  | text (s : String)
  | toolCall (toolCallId toolName argsText : String)
      (result : Option (String × Bool))
  deriving DecidableEq, Repr

/-- Events pushed to the streaming controller.  `textDelta` is
`controller.appendText`; `toolCallPart` is `controller.addToolCallPart`
followed by `close`; `stateUpdate` is a progress chunk and records the
snapshot of the turn's assistant content it carries (the unchanged
prefix — prior history plus the user message — is common to every
snapshot and omitted); `stateFull` is `sendStateUpdate`, which also
sets the session id; `close` is `controller.close()`. -/
inductive Ev
  | textDelta (s : String)
  | toolCallPart (toolCallId toolName argsText : String)
  | stateUpdate (assistantContent : List APart)
  | stateFull (assistantContent : List APart) (sessionId : Option String)
  | close
  deriving DecidableEq, Repr

/-- Text-merge step (`chat.ts` lines 227-231): if the last tracked part
is text, append the fragment to it, otherwise push a new text part. -/
def addTextPart : List APart → String → List APart
  | [], s => [APart.text s]
  | [APart.text t], s => [APart.text (t ++ s)]
  | [APart.toolCall i n a r], s => [APart.toolCall i n a r, APart.text s]
  | p :: q :: ps, s => p :: addTextPart (q :: ps) s

/-- The block loop of the `assistant` branch (`chat.ts` lines 221-251):
text fragments are streamed with `appendText` and merged into the
tracked state; tool invocations are streamed as tool-call parts and
appended pending. -/
def procBlocks : List APart → List CBlock → List APart × List Ev
  | parts, [] => (parts, [])
  | parts, CBlock.text s :: bs =>
      let r := procBlocks (addTextPart parts s) bs
      (r.1, Ev.textDelta s :: r.2)
  | parts, CBlock.tool_use i n inp :: bs =>
      let r := procBlocks (parts ++ [APart.toolCall i n inp none]) bs
      (r.1, Ev.toolCallPart i n inp :: r.2)

/-- Tool-result attachment (`chat.ts` lines 279-286): walk the tracked
parts, overwrite the result of the first tool call whose id equals the
result's `tool_use_id`, then `break`; no change when nothing matches. -/
def attachResult : List APart → String → String → Bool → List APart
  | [], _, _, _ => []
  | APart.toolCall i n a r :: ps, id, c, e =>
      if i = id then APart.toolCall i n a (some (c, e)) :: ps
      else APart.toolCall i n a r :: attachResult ps id c e
  | APart.text t :: ps, id, c, e => APart.text t :: attachResult ps id c e

/-- The block loop of the `user` branch (`chat.ts` lines 276-288). -/
def procUserBlocks : List APart → List UBlock → List APart
  | parts, [] => parts
  | parts, UBlock.tool_result id c e :: bs =>
      procUserBlocks (attachResult parts id c e) bs
  | parts, UBlock.other :: bs => procUserBlocks parts bs

/-- Mutable state of one turn: the tracked assistant content and
`responseState.sessionId`. -/
structure TurnState where
  parts : List APart
  sessionId : Option String
  deriving DecidableEq, Repr

/-- Processing of one SDK message (`chat.ts` lines 215-351): each
branch emits its controller events and updates the turn state; the
`result` branch records the final session id and emits nothing. -/
def procMsg : TurnState → SDKMsg → TurnState × List Ev
  | st, SDKMsg.assistant bs =>
      let r := procBlocks st.parts bs
      (⟨r.1, st.sessionId⟩, r.2 ++ [Ev.stateUpdate r.1])
  | st, SDKMsg.user bs =>
      let parts := procUserBlocks st.parts bs
      (⟨parts, st.sessionId⟩, [Ev.stateUpdate parts])
  | st, SDKMsg.system _ _ => (st, [Ev.stateUpdate st.parts])
  | st, SDKMsg.result sid => (⟨st.parts, some sid⟩, [])

/-- The `for await` loop over the whole raw stream. -/
def procMsgs : TurnState → List SDKMsg → TurnState × List Ev
  | st, [] => (st, [])
  | st, m :: ms =>
      let r := procMsg st m
      let rr := procMsgs r.1 ms
      (rr.1, r.2 ++ rr.2)

/-- Error text appended by the catch block (`chat.ts` line 366). -/
def errText (e : String) : String := "\n\nError: " ++ e

/-- One whole turn (`chat.ts` lines 153-370): the initial
`sendStateUpdate`, the events of the delivered raw messages, then —
on success — the final `sendStateUpdate` and `close`, or — when the
stream raised after delivering `msgs` — the error text appended to the
same assistant stream followed by `close`. -/
def runTurn (sid0 : Option String) (msgs : List SDKMsg)
    (err : Option String) : List Ev :=
  let r := procMsgs ⟨[], sid0⟩ msgs
  Ev.stateFull [] sid0 ::
    (r.2 ++
      match err with
      | none => [Ev.stateFull r.1.parts r.1.sessionId, Ev.close]
      | some e => [Ev.textDelta (errText e), Ev.close])

/-- The handler entry (`chat.ts` lines 111-121, 153): reject with the
error body when no user message can be extracted, otherwise stream the
turn.  The handler keeps no cross-request state: its output depends
only on its own request and its own raw stream. -/
def handleChat (body : ChatRequestBody) (msgs : List SDKMsg)
    (err : Option String) : Except String (List Ev) :=
  match extractUserMessage (body.commands.getD []) with
  | none => Except.error "No message found in commands"
  | some _ => Except.ok (runTurn (body.state.bind (·.sessionId)) msgs err)

/-! ## chat.ts: Redis side effects -/

/-- Value stored under the squoze key (`chat.ts` lines 317-321):
`trigger` and `pre_tokens` from the optional compact metadata plus the
wall-clock timestamp. -/
structure SquozeVal where
  trigger : Option String
  pre_tokens : Option Nat
  timestamp : String
  deriving DecidableEq, Repr

/-- A Redis operation issued by the backend: plain reads, `SETEX` with
its TTL, and deletes (modelled for completeness; the source issues
none). -/
inductive ROp
  | get (key : String)
  | setex (key : String) (ttl : Nat) (val : SquozeVal)
  | del (key : String)
  deriving DecidableEq, Repr

/-- `REDIS_KEYS.squoze` (redis.ts). -/
def squozeKey (sid : String) : String := "duckpond:squoze:" ++ sid

/-- `REDIS_TTL.squoze` (redis.ts): 3600 seconds. -/
def squozeTTL : Nat := 3600

/-- The reads issued by `fetchDynamicContext` (redis.ts): the seven HUD
keys. -/
def hudGets : List ROp :=
  [ROp.get "hud:updated", ROp.get "hud:summary1", ROp.get "hud:summary2",
   ROp.get "hud:summary3", ROp.get "hud:weather", ROp.get "hud:calendar",
   ROp.get "hud:todos"]

/-- JS truthiness normalization `state.sessionId || undefined`
(`chat.ts` line 126). -/
def normSid : Option String → Option String
  | some s => if s = "" then none else some s
  | none => none

/-- Redis operations of one raw message (`chat.ts` lines 307-326): a
`compact_boundary` system notice writes the squoze marker — but only
when the submission-time session id was truthy. -/
def msgRedisOps (sid : Option String) (ts : String) : SDKMsg → List ROp
  | SDKMsg.system subtype meta =>
      if subtype = "compact_boundary" then
        match sid with
        | some s =>
            [ROp.setex (squozeKey s) squozeTTL
               ⟨meta.map (·.1), meta.map (·.2), ts⟩]
        | none => []
      else []
  | _ => []

/-- All Redis operations of one `POST /api/chat` request: the HUD reads
of the pre-query preparation followed by the per-message operations of
the stream loop.  `raw` is the request's `state.sessionId`; `ts` the
wall clock. -/
def handlerRedisOps (raw : Option String) (ts : String)
    (msgs : List SDKMsg) : List ROp :=
  hudGets ++ (msgs.map (msgRedisOps (normSid raw) ts)).flatten

/-- Operations that would consume (read or delete) a squoze marker. -/
def squozeConsumes (ops : List ROp) : List ROp :=
  ops.filter fun op =>
    match op with
    | ROp.get k => jsStarts k "duckpond:squoze:"
    | ROp.del k => jsStarts k "duckpond:squoze:"
    | ROp.setex _ _ _ => false

/-- Operations that write a squoze marker. -/
def squozeWrites (ops : List ROp) : List ROp :=
  ops.filter fun op =>
    match op with
    | ROp.setex k _ _ => jsStarts k "duckpond:squoze:"
    | _ => false

/-! ## jsonl.ts: historical session reconstruction -/

/-- A parsed content block of a session record (`jsonl.ts` interface
`ContentBlock`); all fields optional as in the source.  The `input`
field is carried in serialized form (see the module comment). -/
structure JBlock where
  type : String
  text : Option String := none
  id : Option String := none
  name : Option String := none
  input : Option String := none
  tool_use_id : Option String := none
  content : Option String := none
  is_error : Option Bool := none
  deriving DecidableEq, Repr

/-- One element of a content array: a bare string or a block. -/
inductive JItem
  | str (s : String)
  | blk (b : JBlock)
  deriving DecidableEq, Repr

/-- The `message.content` field: absent, a bare string, or an array. -/
inductive JContent
  | undef
  | str (s : String)
  | arr (items : List JItem)
  deriving DecidableEq, Repr

/-- One parsed JSONL record (`jsonl.ts` interface `SessionRecord`). -/
structure JRec where
  type : String
  uuid : Option String := none
  timestamp : Option String := none
  role : Option String := none
  content : JContent := JContent.undef
  deriving DecidableEq, Repr

/-- A line of a session file: `none` models a blank or unparsable line
(skipped by the per-line `try`/`catch` in `extractDisplayMessages`). -/
abbrev JLine := Option JRec

/-- The `toolResults` map (`jsonl.ts` line 53), modelled as a function
from ids; `Map.set` is function update, so later entries overwrite. -/
def TRMap := String → Option (String × Bool)

/-- First-pass block scan (`jsonl.ts` lines 67-76): every `tool_result`
block with a truthy `tool_use_id` is entered into the map with
`content || ''` and `is_error || false`. -/
def collectBlocks (m : TRMap) : List JItem → TRMap
  | [] => m
  | JItem.str _ :: items => collectBlocks m items
  | JItem.blk b :: items =>
      if b.type = "tool_result" then
        match b.tool_use_id with
        | some id =>
            if id ≠ "" then
              collectBlocks
                (fun k =>
                  if k = id then some (b.content.getD "", b.is_error.getD false)
                  else m k)
                items
            else collectBlocks m items
        | none => collectBlocks m items
      else collectBlocks m items

/-- First-pass line scan (`jsonl.ts` lines 56-77). -/
def collectLine (m : TRMap) : JLine → TRMap
  | none => m
  | some r =>
      match r.content with
      | JContent.arr items => collectBlocks m items
      | _ => m

/-- The whole first pass over the file. -/
def collectResults (lines : List JLine) : TRMap :=
  lines.foldl collectLine (fun _ => none)

/-- A display part (`jsonl.ts` interface `DisplayMessage.content`
entries): text, or a tool call with its optional attached result. -/
inductive DPart
  | text (s : String)
  | toolCall (toolCallId : Option String) (toolName : Option String)
      (argsText : Option String) (result : Option String) (isError : Bool)
  deriving DecidableEq, Repr

/-- One display message (`jsonl.ts` interface `DisplayMessage`). -/
structure DisplayMessage where
  role : String
  content : List DPart
  uuid : Option String := none
  timestamp : Option String := none
  deriving DecidableEq, Repr

/-- Second-pass array scan (`jsonl.ts` lines 104-127): bare strings and
non-empty text blocks become text parts; `tool_use` blocks become
tool-call parts looking their result up in the map under
`block.id || ''`; `tool_result` and other blocks are skipped. -/
def partsOfItems (m : TRMap) : List JItem → List DPart
  | [] => []
  | JItem.str s :: items =>
      if s ≠ "" then DPart.text s :: partsOfItems m items
      else partsOfItems m items
  | JItem.blk b :: items =>
      if b.type = "text" then
        match b.text with
        | some t =>
            if t ≠ "" then DPart.text t :: partsOfItems m items
            else partsOfItems m items
        | none => partsOfItems m items
      else if b.type = "tool_use" then
        let rd := m (b.id.getD "")
        DPart.toolCall b.id b.name b.input (rd.map (·.1))
            ((rd.map (·.2)).getD false) :: partsOfItems m items
      else partsOfItems m items

/-- Second-pass content extraction of one record (`jsonl.ts` lines
99-128): a bare non-empty string becomes one text part; an array is
scanned item by item; anything else yields nothing. -/
def partsOfContent (m : TRMap) : JContent → List DPart
  | JContent.str s => if s ≠ "" then [DPart.text s] else []
  | JContent.arr items => partsOfItems m items
  | JContent.undef => []

/-- Second-pass handling of one record (`jsonl.ts` lines 90-138):
only `user`/`assistant` records with a truthy role and non-empty
extracted content become display messages. -/
def msgOfRec (m : TRMap) (r : JRec) : Option DisplayMessage :=
  if r.type = "user" ∨ r.type = "assistant" then
    match r.role with
    | some role =>
        if role ≠ "" ∧ partsOfContent m r.content ≠ [] then
          some ⟨role, partsOfContent m r.content, r.uuid, r.timestamp⟩
        else none
    | none => none
  else none

/-- `extractDisplayMessages` (`jsonl.ts` lines 51-142). -/
def extractDisplayMessages (lines : List JLine) : List DisplayMessage :=
  let m := collectResults lines
  lines.filterMap fun l => l.bind (msgOfRec m)

/-! ## context.ts: the session listing -/

/-- One session file as the listing sees it: the session id (the file
name minus the `.jsonl` extension, after the directory listing was
filtered to `.jsonl` files) and its non-blank lines, pre-parsed as in
`JLine`. -/
structure SessFile where
  name : String
  lines : List JLine
  deriving DecidableEq, Repr

/-- A listing entry (`context.ts` lines 168-173). -/
structure SessionEntry where
  id : String
  title : String
  created_at : Option String := none
  updated_at : Option String := none
  deriving DecidableEq, Repr

/-- Title extraction from one content array (`context.ts` lines
196-205): the first bare-string or `text` block decides (and breaks),
sliced to 50 characters. -/
def titleOfItems : List JItem → Option String
  | [] => none
  | JItem.str s :: _ => some (jsTake s 50)
  | JItem.blk b :: rest =>
      if b.type = "text" then some (jsTake (b.text.getD "") 50)
      else titleOfItems rest

/-- Title extraction from one record's content (`context.ts` lines
192-206). -/
def titleOfContent : JContent → Option String
  | JContent.str s => some (jsTake s 50)
  | JContent.arr items => titleOfItems items
  | JContent.undef => none

/-- The title loop (`context.ts` lines 189-209): parse lines in order
until the first `user` record, whose content decides the title; an
unparsable line throws, which makes the enclosing `try` skip the whole
file. -/
def titleScan : List JLine → Except Unit (Option String)
  | [] => Except.ok none
  | none :: _ => Except.error ()
  | some r :: rest =>
      if r.type = "user" then Except.ok (titleOfContent r.content)
      else titleScan rest

/-- Per-file processing of the listing loop (`context.ts` lines
177-222): skip empty files and files whose first line, last line or
title scan fails to parse; otherwise build the entry, falling back to
the 8-character session-id slice when the title is null or empty. -/
def buildSession (f : SessFile) : Option SessionEntry :=
  match f.lines.head?, f.lines.getLast? with
  | some (some firstRec), some (some lastRec) =>
      match titleScan f.lines with
      | Except.error _ => none
      | Except.ok t =>
          let title :=
            match t with
            | some s => if s = "" then jsTake f.name 8 else s
            | none => jsTake f.name 8
          some ⟨f.name, title, firstRec.timestamp, lastRec.timestamp⟩
  | _, _ => none

/-- Sort key: `updated_at || ''` (`context.ts` lines 225-229). -/
def updKey (e : SessionEntry) : String := e.updated_at.getD ""

/-- The sort relation of the listing: descending in the sort key (the
comparator `b.localeCompare(a)`). -/
def sessGE (a b : SessionEntry) : Prop := strLe (updKey b) (updKey a) = true

instance : DecidableRel sessGE := fun a b => by
  unfold sessGE; infer_instance

/-- Effective limit: `parseInt(req.query.limit) || 20` — `none` models
an absent or non-numeric parameter (`parseInt` yields `NaN`), and a
parsed `0` is falsy, so both fall back to 20. -/
def effLimit : Option Nat → Nat
  | none => 20
  | some n => if n = 0 then 20 else n

/-- `GET /api/sessions` (`context.ts` lines 160-232): build an entry
per parseable file, sort descending by `updated_at`, truncate to the
limit.  `Array.prototype.sort` is stable and the comparator is a total
preorder, so the stable insertion sort models it exactly. -/
def listSessions (files : List SessFile) (limitQ : Option Nat) :
    List SessionEntry :=
  ((files.filterMap buildSession).insertionSort sessGE).take (effLimit limitQ)

/-! ## Concurrent delivery of two independent response streams -/

/-- `g` is an order-preserving interleaving of `xs` and `ys`.  Each
`POST /api/chat` handler streams to its own response with no shared
cross-request state, so when two turns are in flight the events a
client observes form an arbitrary such interleaving of the two turns'
event lists. -/
def isMerge {α : Type} [DecidableEq α] : List α → List α → List α → Bool
  | xs, ys, [] => xs.isEmpty && ys.isEmpty
  | xs, ys, z :: zs =>
      (match xs with
       | x :: xs' => x = z && isMerge xs' ys zs
       | [] => false)
      ||
      (match ys with
       | y :: ys' => y = z && isMerge xs ys' zs
       | [] => false)

/-! ## Property language -/

/-- The text fragments streamed by `appendText`, in emission order. -/
def textDeltas (evs : List Ev) : List String :=
  evs.filterMap fun e =>
    match e with
    | Ev.textDelta s => some s
    | _ => none

/-- The text fragments of a block sequence, in arrival order. -/
def textFragments (bs : List CBlock) : List String :=
  bs.filterMap fun b =>
    match b with
    | CBlock.text s => some s
    | _ => none

/-- Concatenation of a list of strings in order. -/
def concatAll : List String → String
  | [] => ""
  | s :: ss => s ++ concatAll ss

/-- The final assistant text of a tracked content list: the
concatenation of its text parts in order. -/
def partsText : List APart → String
  | [] => ""
  | APart.text s :: ps => s ++ partsText ps
  | APart.toolCall _ _ _ _ :: ps => partsText ps

/-- Whether the tracked content has a tool call with the given id. -/
def hasCall (ps : List APart) (id : String) : Bool :=
  ps.any fun p =>
    match p with
    | APart.toolCall i _ _ _ => i = id
    | APart.text _ => false

/-- Result field of the first tracked tool call with the given id. -/
def callResult : List APart → String → Option (String × Bool)
  | [], _ => none
  | APart.toolCall i _ _ r :: ps, id => if i = id then r else callResult ps id
  | APart.text _ :: ps, id => callResult ps id

/-- Number of tracked tool calls with the given id. -/
def countCalls : List APart → String → Nat
  | [], _ => 0
  | APart.toolCall i _ _ _ :: ps, id =>
      (if i = id then 1 else 0) + countCalls ps id
  | APart.text _ :: ps, id => countCalls ps id

/-- The `(id, content, is_error)` triples of the tool results in a
user-message block list, in arrival order. -/
def resultsOfBlocks (bs : List UBlock) : List (String × String × Bool) :=
  bs.filterMap fun b =>
    match b with
    | UBlock.tool_result id c e => some (id, c, e)
    | UBlock.other => none

/-- The payload of the last triple in the list whose id is `i`. -/
def lastResultFor : List (String × String × Bool) → String →
    Option (String × Bool)
  | [], _ => none
  | (j, c, e) :: rs, i =>
      match lastResultFor rs i with
      | some v => some v
      | none => if j = i then some (c, e) else none

/-- The first-pass entries a content array contributes (for stating
what the `toolResults` map holds). -/
def itemResults (items : List JItem) : List (String × String × Bool) :=
  items.filterMap fun it =>
    match it with
    | JItem.blk b =>
        if b.type = "tool_result" then
          match b.tool_use_id with
          | some id =>
              if id ≠ "" then
                some (id, b.content.getD "", b.is_error.getD false)
              else none
          | none => none
        else none
    | JItem.str _ => none

/-- The first-pass entries a single line contributes. -/
def lineResults : JLine → List (String × String × Bool)
  | none => []
  | some r =>
      match r.content with
      | JContent.arr items => itemResults items
      | _ => []

/-- All first-pass entries of a file, in order. -/
def allResults (lines : List JLine) : List (String × String × Bool) :=
  (lines.map lineResults).flatten

/-- Specification-side leading text of a content array: the text of the
first bare-string or text block. -/
def leadingTextOfItems (items : List JItem) : Option String :=
  items.findSome? fun it =>
    match it with
    | JItem.str s => some s
    | JItem.blk b => if b.type = "text" then some (b.text.getD "") else none

/-- Specification-side leading text of a message content. -/
def leadingTextOfContent : JContent → Option String
  | JContent.str s => some s
  | JContent.arr items => leadingTextOfItems items
  | JContent.undef => none

/-- The first `user` record of a file (specification side). -/
def firstUserRec (lines : List JLine) : Option JRec :=
  lines.findSome? fun l =>
    match l with
    | some r => if r.type = "user" then some r else none
    | none => none

/-- Title as the specification words it: the leading text of the first
user message truncated to 50 characters, falling back to an 8-character
session-id slice when no such text exists (or it is empty).  Defined
from the spec's words, to be compared with `buildSession`. -/
def titleSpec (f : SessFile) : String :=
  match (firstUserRec f.lines).bind (fun r => leadingTextOfContent r.content) with
  | some s => if jsTake s 50 = "" then jsTake f.name 8 else jsTake s 50
  | none => jsTake f.name 8

/-- Two small session files used to witness the listing properties. -/
def demoFiles : List SessFile :=
  [⟨"aaaa1111-0000", [some ⟨"user", none, some "2026-01-01T10:00:00Z",
      some "user", JContent.str "hello there"⟩]⟩,
   ⟨"bbbb2222-0000", [some ⟨"user", none, some "2026-02-01T10:00:00Z",
      some "user", JContent.arr [JItem.blk
        ⟨"text", some "yo", none, none, none, none, none, none⟩]⟩]⟩]

/-- The listing entry of the second demo file. -/
def demoEntry : SessionEntry :=
  ⟨"bbbb2222-0000", "yo", some "2026-02-01T10:00:00Z",
   some "2026-02-01T10:00:00Z"⟩

/-! ## Lemmas about the assistant block loop -/

theorem procBlocks_append (xs ys : List CBlock) (parts : List APart) :
    procBlocks parts (xs ++ ys)
      = ((procBlocks (procBlocks parts xs).1 ys).1,
         (procBlocks parts xs).2 ++ (procBlocks (procBlocks parts xs).1 ys).2) := by
  induction xs generalizing parts with
  | nil => simp [procBlocks]
  | cons b bs ih =>
      cases b with
      | text s => simp [procBlocks, ih]
      | tool_use i n inp => simp [procBlocks, ih]

theorem textDeltas_append (a b : List Ev) :
    textDeltas (a ++ b) = textDeltas a ++ textDeltas b := by
  simp [textDeltas, List.filterMap_append]

theorem textDeltas_procBlocks (bs : List CBlock) (parts : List APart) :
    textDeltas (procBlocks parts bs).2 = textFragments bs := by
  induction bs generalizing parts with
  | nil => simp [procBlocks, textDeltas, textFragments]
  | cons b bs ih =>
      cases b with
      | text s => simp [procBlocks, textDeltas, textFragments, List.filterMap] at ih ⊢; exact ih _
      | tool_use i n inp => simp [procBlocks, textDeltas, textFragments, List.filterMap] at ih ⊢; exact ih _

theorem partsText_addTextPart (ps : List APart) (s : String) :
    partsText (addTextPart ps s) = partsText ps ++ s := by
  induction ps with
  | nil => simp [addTextPart, partsText, String.append_empty, String.empty_append]
  | cons p rest ih =>
      cases rest with
      | nil =>
          cases p with
          | text t =>
              simp [addTextPart, partsText, String.append_empty, String.append_assoc]
          | toolCall i n a r =>
              simp [addTextPart, partsText, String.append_empty, String.empty_append]
      | cons q rs =>
          cases p with
          | text t =>
              simp [addTextPart, partsText, ih, String.append_assoc]
          | toolCall i n a r =>
              simp [addTextPart, partsText, ih]

theorem partsText_append (xs ys : List APart) :
    partsText (xs ++ ys) = partsText xs ++ partsText ys := by
  induction xs with
  | nil => simp [partsText, String.empty_append]
  | cons p rest ih =>
      cases p with
      | text t => simp [partsText, ih, String.append_assoc]
      | toolCall i n a r => simp [partsText, ih]

theorem partsText_procBlocks (bs : List CBlock) (parts : List APart) :
    partsText (procBlocks parts bs).1
      = partsText parts ++ concatAll (textFragments bs) := by
  induction bs generalizing parts with
  | nil => simp [procBlocks, textFragments, concatAll, String.append_empty]
  | cons b bs ih =>
      cases b with
      | text s =>
          simp only [procBlocks, textFragments, List.filterMap]
          rw [ih, partsText_addTextPart]
          simp [concatAll, textFragments, String.append_assoc]
      | tool_use i n inp =>
          simp only [procBlocks, textFragments, List.filterMap]
          rw [ih, partsText_append]
          simp [partsText, concatAll, textFragments, String.append_empty]

theorem procMsgs_assistant_chunks (chunks : List (List CBlock)) (st : TurnState) :
    (procMsgs st (chunks.map SDKMsg.assistant)).1.parts
        = (procBlocks st.parts chunks.flatten).1
    ∧ textDeltas (procMsgs st (chunks.map SDKMsg.assistant)).2
        = textFragments chunks.flatten := by
  induction chunks generalizing st with
  | nil => simp [procMsgs, procBlocks, textDeltas, textFragments]
  | cons c cs ih =>
      have h := ih ⟨(procBlocks st.parts c).1, st.sessionId⟩
      constructor
      · simp only [List.map, procMsgs, procMsg, List.flatten, procBlocks_append]
        exact h.1
      · simp only [List.map, procMsgs, procMsg, List.flatten, procBlocks_append]
        rw [textDeltas_append, textDeltas_append]
        have hsu : textDeltas [Ev.stateUpdate (procBlocks st.parts c).1] = [] := by
          simp [textDeltas, List.filterMap]
        rw [hsu, textDeltas_procBlocks, h.2]
        simp [textFragments, List.filterMap_append]

theorem addTextPart_last_text (ps : List APart) (t s : String) :
    addTextPart (ps ++ [APart.text t]) s = ps ++ [APart.text (t ++ s)] := by
  induction ps with
  | nil => simp [addTextPart]
  | cons p rest ih =>
      cases rest with
      | nil => simp [addTextPart]
      | cons q rs => simpa [addTextPart] using ih

/-- C1: for every turn, the text fragments streamed by `appendText`,
concatenated in arrival order, reconstruct the final tracked assistant
text; the tracked state and the delta sequence depend only on the
flattened fragment sequence, not on how the raw stream was chunked
into assistant messages; and the merge policy appends each fragment to
the end of a trailing text part. -/
theorem chat_text_delta_reconstruction
    (chunks : List (List CBlock)) (sid : Option String) :
    (procMsgs ⟨[], sid⟩ (chunks.map SDKMsg.assistant)).1.parts
        = (procBlocks [] chunks.flatten).1
    ∧ textDeltas (procMsgs ⟨[], sid⟩ (chunks.map SDKMsg.assistant)).2
        = textFragments chunks.flatten
    ∧ concatAll (textDeltas (procMsgs ⟨[], sid⟩ (chunks.map SDKMsg.assistant)).2)
        = partsText (procMsgs ⟨[], sid⟩ (chunks.map SDKMsg.assistant)).1.parts
    ∧ ∀ (ps : List APart) (t s : String),
        addTextPart (ps ++ [APart.text t]) s = ps ++ [APart.text (t ++ s)] := by
  obtain ⟨h1, h2⟩ := procMsgs_assistant_chunks chunks ⟨[], sid⟩
  refine ⟨h1, h2, ?_, addTextPart_last_text⟩
  rw [h1, h2, partsText_procBlocks]
  have h0 : partsText [] = "" := rfl
  rw [h0, String.empty_append]

/-! ## Lemmas about tool-result attachment (live path) -/

theorem hasCall_cons_text (t : String) (ps : List APart) (id : String) :
    hasCall (APart.text t :: ps) id = hasCall ps id := by
  simp [hasCall]

theorem hasCall_cons_tc (i n a : String) (r : Option (String × Bool))
    (ps : List APart) (id : String) :
    hasCall (APart.toolCall i n a r :: ps) id
      = (decide (i = id) || hasCall ps id) := by
  simp [hasCall]

theorem attachResult_no_match (ps : List APart) (id c : String) (e : Bool)
    (h : hasCall ps id = false) : attachResult ps id c e = ps := by
  induction ps with
  | nil => rfl
  | cons p rest ih =>
      cases p with
      | text t =>
          rw [hasCall_cons_text] at h
          simp [attachResult, ih h]
      | toolCall i n a r =>
          rw [hasCall_cons_tc] at h
          have h1 : ¬ i = id := by
            intro hh
            simp [hh] at h
          have h2 : hasCall rest id = false := by
            rcases Bool.or_eq_false_iff.mp h with ⟨_, h2⟩
            exact h2
          simp [attachResult, h1, ih h2]

theorem attachResult_hasCall (ps : List APart) (id c : String) (e : Bool)
    (i : String) : hasCall (attachResult ps id c e) i = hasCall ps i := by
  induction ps with
  | nil => rfl
  | cons p rest ih =>
      cases p with
      | text t => simp [attachResult, hasCall_cons_text, ih]
      | toolCall j n a r =>
          by_cases hj : j = id
          · simp [attachResult, hj, hasCall_cons_tc]
          · simp [attachResult, hj, hasCall_cons_tc, ih]

theorem attachResult_callResult_match (ps : List APart) (id c : String)
    (e : Bool) (h : hasCall ps id = true) :
    callResult (attachResult ps id c e) id = some (c, e) := by
  induction ps with
  | nil => simp [hasCall] at h
  | cons p rest ih =>
      cases p with
      | text t =>
          rw [hasCall_cons_text] at h
          simp [attachResult, callResult, ih h]
      | toolCall j n a r =>
          by_cases hj : j = id
          · simp [attachResult, hj, callResult]
          · rw [hasCall_cons_tc] at h
            have h2 : hasCall rest id = true := by
              simpa [hj] using h
            simp [attachResult, hj, callResult, ih h2]

theorem attachResult_callResult_ne (ps : List APart) (id c : String)
    (e : Bool) (i : String) (h : i ≠ id) :
    callResult (attachResult ps id c e) i = callResult ps i := by
  induction ps with
  | nil => rfl
  | cons p rest ih =>
      cases p with
      | text t => simp [attachResult, callResult, ih]
      | toolCall j n a r =>
          by_cases hj : j = id
          · subst hj
            have hji : ¬ j = i := fun hh => h hh.symm
            simp [attachResult, callResult, hji]
          · by_cases hji : j = i
            · subst hji
              simp [attachResult, hj, callResult]
            · simp [attachResult, hj, callResult, hji, ih]

theorem resultsOfBlocks_cons_tr (id c : String) (e : Bool) (bs : List UBlock) :
    resultsOfBlocks (UBlock.tool_result id c e :: bs)
      = (id, c, e) :: resultsOfBlocks bs := by
  simp [resultsOfBlocks]

theorem resultsOfBlocks_cons_other (bs : List UBlock) :
    resultsOfBlocks (UBlock.other :: bs) = resultsOfBlocks bs := by
  simp [resultsOfBlocks]

theorem lastResultFor_cons (j c : String) (e : Bool)
    (rs : List (String × String × Bool)) (i : String) :
    lastResultFor ((j, c, e) :: rs) i
      = (match lastResultFor rs i with
         | some v => some v
         | none => if j = i then some (c, e) else none) := rfl

theorem procUserBlocks_lastWins (bs : List UBlock) (ps : List APart)
    (i : String) (h : hasCall ps i = true) :
    callResult (procUserBlocks ps bs) i
      = (match lastResultFor (resultsOfBlocks bs) i with
         | some v => some v
         | none => callResult ps i) := by
  induction bs generalizing ps with
  | nil => simp [procUserBlocks, resultsOfBlocks, lastResultFor]
  | cons b bs ih =>
      cases b with
      | other =>
          rw [resultsOfBlocks_cons_other]
          exact ih ps h
      | tool_result id c e =>
          have hps : hasCall (attachResult ps id c e) i = true := by
            rw [attachResult_hasCall]; exact h
          have step := ih (attachResult ps id c e) hps
          show callResult (procUserBlocks (attachResult ps id c e) bs) i = _
          rw [step, resultsOfBlocks_cons_tr, lastResultFor_cons]
          cases hlast : lastResultFor (resultsOfBlocks bs) i with
          | some v => simp
          | none =>
              by_cases hid : id = i
              · subst hid
                simp [attachResult_callResult_match ps id c e h]
              · simp [hid, attachResult_callResult_ne ps id c e i
                  (fun hh => hid hh.symm)]

theorem procUserBlocks_hasCall (bs : List UBlock) (ps : List APart)
    (i : String) : hasCall (procUserBlocks ps bs) i = hasCall ps i := by
  induction bs generalizing ps with
  | nil => rfl
  | cons b bs ih =>
      cases b with
      | other => exact ih ps
      | tool_result id c e =>
          show hasCall (procUserBlocks (attachResult ps id c e) bs) i = _
          rw [ih, attachResult_hasCall]

/-! ## Lemmas about the first-pass result map (historical path) -/

theorem lastResultFor_append (a b : List (String × String × Bool))
    (i : String) :
    lastResultFor (a ++ b) i
      = (match lastResultFor b i with
         | some v => some v
         | none => lastResultFor a i) := by
  induction a with
  | nil =>
      simp only [List.nil_append]
      cases hx : lastResultFor b i <;> rfl
  | cons r rs ih =>
      obtain ⟨j, c, e⟩ := r
      simp only [List.cons_append, lastResultFor_cons, ih]
      cases lastResultFor b i <;> cases lastResultFor rs i <;> rfl

theorem collectBlocks_cons_str (m : TRMap) (s : String) (items : List JItem) :
    collectBlocks m (JItem.str s :: items) = collectBlocks m items := rfl

theorem collectBlocks_cons_hit (m : TRMap) (b : JBlock) (id : String)
    (items : List JItem) (hb : b.type = "tool_result")
    (hid : b.tool_use_id = some id) (hne : ¬ id = "") :
    collectBlocks m (JItem.blk b :: items)
      = collectBlocks
          (fun k =>
            if k = id then some (b.content.getD "", b.is_error.getD false)
            else m k)
          items := by
  simp [collectBlocks, hb, hid, hne]

theorem collectBlocks_cons_skip (m : TRMap) (b : JBlock)
    (items : List JItem)
    (h : ¬ b.type = "tool_result" ∨ b.tool_use_id = none
         ∨ b.tool_use_id = some "") :
    collectBlocks m (JItem.blk b :: items) = collectBlocks m items := by
  rcases h with h | h | h
  · simp [collectBlocks, h]
  · by_cases hb : b.type = "tool_result" <;> simp [collectBlocks, hb, h]
  · by_cases hb : b.type = "tool_result" <;> simp [collectBlocks, hb, h]

theorem collectBlocks_apply (items : List JItem) (m : TRMap) (i : String) :
    collectBlocks m items i
      = (match lastResultFor (itemResults items) i with
         | some v => some v
         | none => m i) := by
  induction items generalizing m with
  | nil => simp [collectBlocks, itemResults, lastResultFor]
  | cons it items ih =>
      cases it with
      | str s =>
          have he : itemResults (JItem.str s :: items) = itemResults items := by
            simp [itemResults]
          rw [he, collectBlocks_cons_str]
          exact ih m
      | blk b =>
          by_cases hb : b.type = "tool_result"
          · cases hid : b.tool_use_id with
            | none =>
                have he : itemResults (JItem.blk b :: items)
                    = itemResults items := by
                  simp [itemResults, hb, hid]
                rw [he, collectBlocks_cons_skip m b items (Or.inr (Or.inl hid))]
                exact ih m
            | some id =>
                by_cases hne : id = ""
                · subst hne
                  have he : itemResults (JItem.blk b :: items)
                      = itemResults items := by
                    simp [itemResults, hb, hid]
                  rw [he, collectBlocks_cons_skip m b items
                      (Or.inr (Or.inr hid))]
                  exact ih m
                · have he : itemResults (JItem.blk b :: items)
                      = (id, b.content.getD "", b.is_error.getD false)
                          :: itemResults items := by
                    simp [itemResults, hb, hid, hne]
                  rw [he, collectBlocks_cons_hit m b id items hb hid hne,
                      lastResultFor_cons, ih]
                  cases hlast : lastResultFor (itemResults items) i with
                  | some v => simp
                  | none =>
                      by_cases hii : i = id
                      · subst hii
                        simp
                      · have h2 : ¬ id = i := fun hh => hii hh.symm
                        simp [h2]
                        exact fun hh => absurd hh hii
          · have he : itemResults (JItem.blk b :: items)
                = itemResults items := by
              simp [itemResults, hb]
            rw [he, collectBlocks_cons_skip m b items (Or.inl hb)]
            exact ih m

theorem allResults_cons (l : JLine) (ls : List JLine) :
    allResults (l :: ls) = lineResults l ++ allResults ls := by
  simp [allResults]

theorem collectResults_fold (lines : List JLine) :
    ∀ (m : TRMap) (i : String),
      lines.foldl collectLine m i
        = (match lastResultFor (allResults lines) i with
           | some v => some v
           | none => m i) := by
  induction lines with
  | nil =>
      intro m i
      simp [allResults, lastResultFor]
  | cons l ls ih =>
      intro m i
      rw [List.foldl_cons, ih (collectLine m l) i, allResults_cons,
          lastResultFor_append]
      cases hls : lastResultFor (allResults ls) i with
      | some v => rfl
      | none =>
          show collectLine m l i = _
          cases l with
          | none => simp [collectLine, lineResults, lastResultFor]
          | some r =>
              cases hc : r.content with
              | arr items =>
                  simp only [collectLine, hc, lineResults]
                  rw [collectBlocks_apply]
              | str s => simp [collectLine, hc, lineResults, lastResultFor]
              | undef => simp [collectLine, hc, lineResults, lastResultFor]

theorem collectResults_last (lines : List JLine) (i : String) :
    collectResults lines i = lastResultFor (allResults lines) i := by
  rw [collectResults, collectResults_fold lines _ i]
  cases lastResultFor (allResults lines) i <;> rfl

theorem partsOfItems_cons_tool (m : TRMap) (b : JBlock) (items : List JItem)
    (hb : ¬ b.type = "text") (hu : b.type = "tool_use") :
    partsOfItems m (JItem.blk b :: items)
      = DPart.toolCall b.id b.name b.input
          ((m (b.id.getD "")).map (·.1))
          (((m (b.id.getD "")).map (·.2)).getD false)
          :: partsOfItems m items := by
  simp [partsOfItems, hb, hu]

theorem partsOfItems_toolCall (m : TRMap) (items : List JItem)
    (i n a : Option String) (r : Option String) (e : Bool)
    (hmem : DPart.toolCall i n a r e ∈ partsOfItems m items) :
    r = (m (i.getD "")).map (·.1)
    ∧ e = ((m (i.getD "")).map (·.2)).getD false := by
  induction items with
  | nil => simp [partsOfItems] at hmem
  | cons it items ih =>
      cases it with
      | str s =>
          by_cases hs : s = ""
          · refine ih ?_
            simpa [partsOfItems, hs] using hmem
          · rw [show partsOfItems m (JItem.str s :: items)
                  = DPart.text s :: partsOfItems m items by
                simp [partsOfItems, hs]] at hmem
            rcases List.mem_cons.mp hmem with hc | hmem2
            · cases hc
            · exact ih hmem2
      | blk b =>
          by_cases hb : b.type = "text"
          · cases ht : b.text with
            | none =>
                refine ih ?_
                simpa [partsOfItems, hb, ht] using hmem
            | some t =>
                by_cases hts : t = ""
                · refine ih ?_
                  simpa [partsOfItems, hb, ht, hts] using hmem
                · rw [show partsOfItems m (JItem.blk b :: items)
                        = DPart.text t :: partsOfItems m items by
                      simp [partsOfItems, hb, ht, hts]] at hmem
                  rcases List.mem_cons.mp hmem with hc | hmem2
                  · cases hc
                  · exact ih hmem2
          · by_cases hu : b.type = "tool_use"
            · rw [partsOfItems_cons_tool m b items hb hu] at hmem
              rcases List.mem_cons.mp hmem with hc | hmem2
              · obtain ⟨hi, hn, ha, hr, he⟩ := DPart.toolCall.inj hc
                subst hi
                exact ⟨hr, he⟩
              · exact ih hmem2
            · refine ih ?_
              simpa [partsOfItems, hb, hu] using hmem

theorem msgOfRec_content (m : TRMap) (rec : JRec) (dm : DisplayMessage)
    (h : msgOfRec m rec = some dm) :
    dm.content = partsOfContent m rec.content := by
  rw [msgOfRec] at h
  by_cases hty : rec.type = "user" ∨ rec.type = "assistant"
  · rw [if_pos hty] at h
    cases hrole : rec.role with
    | none => rw [hrole] at h; cases h
    | some role =>
        simp only [hrole] at h
        by_cases hcnd : role ≠ "" ∧ partsOfContent m rec.content ≠ []
        · rw [if_pos hcnd] at h
          cases h
          rfl
        · rw [if_neg hcnd] at h
          cases h
  · rw [if_neg hty] at h
    cases h

theorem extractDisplayMessages_toolCall (lines : List JLine)
    (dm : DisplayMessage) (hdm : dm ∈ extractDisplayMessages lines)
    (i n a : Option String) (r : Option String) (e : Bool)
    (hp : DPart.toolCall i n a r e ∈ dm.content) :
    r = (collectResults lines (i.getD "")).map (·.1)
    ∧ e = ((collectResults lines (i.getD "")).map (·.2)).getD false := by
  rw [extractDisplayMessages] at hdm
  rcases List.mem_filterMap.mp hdm with ⟨l, _, hl⟩
  cases l with
  | none => simp at hl
  | some rec =>
      have hl2 : msgOfRec (collectResults lines) rec = some dm := by
        simpa using hl
      have hc := msgOfRec_content _ _ _ hl2
      rw [hc] at hp
      cases hcont : rec.content with
      | str s =>
          rw [hcont] at hp
          by_cases hs : s ≠ ""
          · rw [partsOfContent, if_pos hs] at hp
            rcases List.mem_cons.mp hp with hcelim | hfalse
            · cases hcelim
            · cases hfalse
          · rw [partsOfContent, if_neg hs] at hp
            cases hp
      | arr items =>
          rw [hcont] at hp
          exact partsOfItems_toolCall _ items i n a r e hp
      | undef =>
          rw [hcont] at hp
          cases hp

/-! ## Lemmas about whole-turn processing -/

theorem procMsgs_append (xs ys : List SDKMsg) (st : TurnState) :
    procMsgs st (xs ++ ys)
      = ((procMsgs (procMsgs st xs).1 ys).1,
         (procMsgs st xs).2 ++ (procMsgs (procMsgs st xs).1 ys).2) := by
  induction xs generalizing st with
  | nil => simp [procMsgs]
  | cons m ms ih => simp [procMsgs, ih]

theorem getLast_cons_append_two {α : Type} (a x y : α) (l : List α) :
    (a :: (l ++ [x, y])).getLast? = some y := by
  have h : a :: (l ++ [x, y]) = ((a :: l) ++ [x]) ++ [y] := by simp
  rw [h, List.getLast?_concat]

theorem runTurn_getLast (sid : Option String) (msgs : List SDKMsg)
    (err : Option String) :
    (runTurn sid msgs err).getLast? = some Ev.close := by
  cases err with
  | none => exact getLast_cons_append_two _ _ _ _
  | some e => exact getLast_cons_append_two _ _ _ _

theorem dropLast_append_two {α : Type} (l : List α) (a b : α) :
    (l ++ [a, b]).dropLast.dropLast = l := by
  have h : l ++ [a, b] = (l ++ [a]) ++ [b] := by simp
  rw [h, List.dropLast_concat, List.dropLast_concat]

/-! ## Lemmas about interleaved delivery -/

theorem isMerge_nil_right {α : Type} [DecidableEq α] (xs : List α) :
    isMerge xs [] xs = true := by
  induction xs with
  | nil => rfl
  | cons x xs ih => simp [isMerge, ih]

theorem isMerge_nil_left {α : Type} [DecidableEq α] (ys : List α) :
    isMerge [] ys ys = true := by
  induction ys with
  | nil => rfl
  | cons y ys ih => simp [isMerge, ih]

theorem isMerge_right_then_left {α : Type} [DecidableEq α]
    (xs ys : List α) : isMerge xs ys (ys ++ xs) = true := by
  induction ys with
  | nil => simpa using isMerge_nil_right xs
  | cons y ys ih =>
      cases xs with
      | nil => simpa using isMerge_nil_left (y :: ys)
      | cons x xs' => simp [isMerge, ih]

/-! ## Lemmas about user-message extraction -/

theorem extractParts_empty (ps : List UIContentPart)
    (h : ∀ p ∈ ps, (p.type = "text" → jsTrim (p.text.getD "") = "")
          ∧ p.type ≠ "image") :
    (extractParts ps).sdkContent = [] := by
  induction ps with
  | nil => rfl
  | cons p ps ih =>
      have hp := h p (List.mem_cons_self p ps)
      have hrest := ih fun q hq => h q (List.mem_cons_of_mem p hq)
      by_cases ht : p.type = "text"
      · cases htx : p.text with
        | none => simpa [extractParts, ht, htx] using hrest
        | some t =>
            have : jsTrim t = "" := by
              have := hp.1 ht
              rwa [htx] at this
            simpa [extractParts, ht, htx, this] using hrest
      · have hi : ¬ p.type = "image" := hp.2
        simpa [extractParts, ht, hi] using hrest

theorem extractUserMessage_none (cmds : List MessageCommand)
    (h : ∀ cmd ∈ cmds, ∀ p ∈ cmdParts cmd,
          (p.type = "text" → jsTrim (p.text.getD "") = "")
          ∧ p.type ≠ "image") :
    extractUserMessage cmds = none := by
  induction cmds with
  | nil => rfl
  | cons cmd rest ih =>
      have hrest := ih fun c hc => h c (List.mem_cons_of_mem cmd hc)
      have hempty : (extractParts (cmdParts cmd)).sdkContent = [] :=
        extractParts_empty _ (h cmd (List.mem_cons_self cmd rest))
      by_cases hc : cmd.type = "add-message" ∧ cmd.message ≠ none
      · simp only [extractUserMessage, if_pos hc, hempty]
        simpa using hrest
      · simp only [extractUserMessage, if_neg hc]
        exact hrest

/-! ## Lemmas about the Redis operation trace -/

theorem squozeConsumes_msg (sid : Option String) (ts : String)
    (m : SDKMsg) : squozeConsumes (msgRedisOps sid ts m) = [] := by
  cases m with
  | system subtype meta =>
      by_cases hs : subtype = "compact_boundary"
      · cases sid <;> simp [msgRedisOps, hs, squozeConsumes]
      · simp [msgRedisOps, hs, squozeConsumes]
  | assistant bs => rfl
  | user bs => rfl
  | result s => rfl

theorem squozeWrites_msg_none (ts : String) (m : SDKMsg) :
    squozeWrites (msgRedisOps none ts m) = [] := by
  cases m with
  | system subtype meta =>
      by_cases hs : subtype = "compact_boundary"
      · simp [msgRedisOps, hs, squozeWrites]
      · simp [msgRedisOps, hs, squozeWrites]
  | assistant bs => rfl
  | user bs => rfl
  | result s => rfl

theorem filter_flatten_eq_nil {α : Type} (p : α → Bool)
    (ls : List (List α)) (h : ∀ l ∈ ls, l.filter p = []) :
    ls.flatten.filter p = [] := by
  induction ls with
  | nil => rfl
  | cons l ls ih =>
      simp only [List.flatten_cons, List.filter_append,
        h l (List.mem_cons_self l ls),
        ih fun x hx => h x (List.mem_cons_of_mem l hx)]
      rfl

/-! ## Lemmas about the session listing -/

theorem listLe_total (a : List Char) : ∀ b, listLe a b = true ∨ listLe b a = true := by
  induction a with
  | nil => intro b; left; rfl
  | cons x xs ih =>
      intro b
      cases b with
      | nil => right; rfl
      | cons y ys =>
          by_cases hxy : x = y
          · subst hxy
            rcases ih ys with h | h
            · left; simpa [listLe] using h
            · right; simpa [listLe] using h
          · rcases lt_or_gt_of_ne hxy with h | h
            · left; simp [listLe, hxy, h]
            · right
              have hyx : ¬ y = x := fun hh => hxy hh.symm
              simp [listLe, hyx, h]

theorem listLe_trans (a : List Char) :
    ∀ b c, listLe a b = true → listLe b c = true → listLe a c = true := by
  induction a with
  | nil => intro b c _ _; rfl
  | cons x xs ih =>
      intro b c hab hbc
      cases b with
      | nil => simp [listLe] at hab
      | cons y ys =>
          cases c with
          | nil => simp [listLe] at hbc
          | cons z zs =>
              by_cases hxy : x = y
              · subst hxy
                by_cases hyz : x = z
                · subst hyz
                  simp only [listLe, if_pos rfl] at hab hbc ⊢
                  exact ih ys zs hab hbc
                · simp only [listLe, if_pos rfl] at hab
                  simp only [listLe, if_neg hyz] at hbc ⊢
                  exact hbc
              · simp only [listLe, if_neg hxy] at hab
                by_cases hyz : y = z
                · subst hyz
                  simp only [listLe, if_neg hxy]
                  exact hab
                · simp only [listLe, if_neg hyz] at hbc
                  have hxz : x < z :=
                    lt_trans (of_decide_eq_true hab) (of_decide_eq_true hbc)
                  have hxz' : ¬ x = z := ne_of_lt hxz
                  simp [listLe, hxz', hxz]

theorem sessGE_trans : ∀ a b c : SessionEntry,
    sessGE a b → sessGE b c → sessGE a c := by
  intro a b c hab hbc
  exact listLe_trans _ _ _ hbc hab

theorem sessGE_total : ∀ a b : SessionEntry, sessGE a b ∨ sessGE b a := by
  intro a b
  rcases listLe_total (updKey b).toList (updKey a).toList with h | h
  · left; exact h
  · right; exact h

theorem titleOfItems_spec (items : List JItem) :
    titleOfItems items
      = (leadingTextOfItems items).map (fun s => jsTake s 50) := by
  induction items with
  | nil => rfl
  | cons it items ih =>
      cases it with
      | str s => simp [titleOfItems, leadingTextOfItems]
      | blk b =>
          by_cases hb : b.type = "text"
          · simp [titleOfItems, leadingTextOfItems, hb]
          · simpa [titleOfItems, leadingTextOfItems, hb] using ih

theorem titleOfContent_spec (c : JContent) :
    titleOfContent c
      = (leadingTextOfContent c).map (fun s => jsTake s 50) := by
  cases c with
  | str s => rfl
  | arr items => simpa [titleOfContent, leadingTextOfContent]
      using titleOfItems_spec items
  | undef => rfl

theorem titleScan_ok (lines : List JLine) (t : Option String)
    (h : titleScan lines = Except.ok t) :
    t = (firstUserRec lines).bind (fun r => titleOfContent r.content) := by
  induction lines with
  | nil =>
      cases h
      rfl
  | cons l ls ih =>
      cases l with
      | none => cases h
      | some r =>
          by_cases hu : r.type = "user"
          · rw [titleScan, if_pos hu] at h
            cases h
            simp [firstUserRec, List.findSome?, hu]
          · rw [titleScan, if_neg hu] at h
            rw [ih h]
            simp [firstUserRec, List.findSome?, hu]

theorem buildSession_entry (f : SessFile) (e : SessionEntry)
    (h : buildSession f = some e) :
    e.id = f.name ∧ e.title = titleSpec f := by
  rw [buildSession] at h
  cases hh : f.lines.head? with
  | none => rw [hh] at h; cases h
  | some l0 =>
      cases l0 with
      | none => rw [hh] at h; cases h
      | some firstRec =>
          cases hg : f.lines.getLast? with
          | none => rw [hh, hg] at h; cases h
          | some lN =>
              cases lN with
              | none => rw [hh, hg] at h; cases h
              | some lastRec =>
                  simp only [hh, hg] at h
                  cases hts : titleScan f.lines with
                  | error u => rw [hts] at h; cases h
                  | ok t =>
                      rw [hts] at h
                      have ht := titleScan_ok f.lines t hts
                      have hbind :
                          (firstUserRec f.lines).bind
                              (fun r => titleOfContent r.content)
                            = ((firstUserRec f.lines).bind
                                (fun r => leadingTextOfContent r.content)).map
                                (fun s => jsTake s 50) := by
                        cases firstUserRec f.lines with
                        | none => rfl
                        | some r => simp [titleOfContent_spec]
                      rw [hbind] at ht
                      cases hbv : (firstUserRec f.lines).bind
                          (fun r => leadingTextOfContent r.content) with
                      | none =>
                          rw [hbv] at ht
                          subst ht
                          cases h
                          refine ⟨rfl, ?_⟩
                          simp [titleSpec, hbv]
                      | some s =>
                          rw [hbv] at ht
                          subst ht
                          cases h
                          refine ⟨rfl, ?_⟩
                          simp [titleSpec, hbv, Option.map]

theorem squozeConsumes_append (a b : List ROp) :
    squozeConsumes (a ++ b) = squozeConsumes a ++ squozeConsumes b :=
  List.filter_append a b

theorem squozeWrites_append (a b : List ROp) :
    squozeWrites (a ++ b) = squozeWrites a ++ squozeWrites b :=
  List.filter_append a b

/-! ## Claims -/

/-- C2 counterexample: one tool call `t1` followed by two tool results
carrying the same identifier `t1` with different payloads.  On the live
path each duplicate overwrites the attachment, and in the historical
first pass `Map.set` overwrites the map entry, so in both paths the
final attached result is the second arrival `r2` — not the first `r1`
that first-match-wins would retain.  This refutes the claim's
"exactly once ... first-match-wins when duplicate results carry the
same identifier". -/
theorem c2_counterexample :
    procUserBlocks [APart.toolCall "t1" "Read" "p" none]
        [UBlock.tool_result "t1" "r1" false, UBlock.tool_result "t1" "r2" false]
      = [APart.toolCall "t1" "Read" "p" (some ("r2", false))]
    ∧ collectResults
        [some ⟨"user", none, none, some "user", JContent.arr
          [JItem.blk ⟨"tool_result", none, none, none, none, some "t1",
            some "r1", some false⟩]⟩,
         some ⟨"user", none, none, some "user", JContent.arr
          [JItem.blk ⟨"tool_result", none, none, none, none, some "t1",
            some "r2", some false⟩]⟩] "t1"
      = some ("r2", false)
    ∧ ("r2", false) ≠ (("r1", false) : String × Bool) := by
  refine ⟨by decide, ?_, by decide⟩
  decide

/-- C2 (amended): results are matched to tool calls by exact identifier
equality; a duplicated identifier makes the **last** result win (each
duplicate overwrites the previous attachment on the live path, and the
historical first-pass map retains the last entry); a tool call that
never receives a result remains pending (its prior, absent result is
kept, and the call itself is never removed); and each reconstructed
historical tool-call part carries exactly the map's entry for its
identifier. -/
theorem c2_tool_result_last_wins :
    (∀ (ps : List APart) (bs : List UBlock) (i : String),
        hasCall ps i = true →
        callResult (procUserBlocks ps bs) i
          = (match lastResultFor (resultsOfBlocks bs) i with
             | some v => some v
             | none => callResult ps i))
    ∧ (∀ (lines : List JLine) (i : String),
        collectResults lines i = lastResultFor (allResults lines) i)
    ∧ (∀ (ps : List APart) (bs : List UBlock) (i : String),
        hasCall (procUserBlocks ps bs) i = hasCall ps i)
    ∧ (∀ (lines : List JLine) (dm : DisplayMessage),
        dm ∈ extractDisplayMessages lines →
        ∀ (i n a : Option String) (r : Option String) (e : Bool),
          DPart.toolCall i n a r e ∈ dm.content →
          r = (collectResults lines (i.getD "")).map (·.1)
          ∧ e = ((collectResults lines (i.getD "")).map (·.2)).getD false) :=
  ⟨fun ps bs i h => procUserBlocks_lastWins bs ps i h, collectResults_last,
   fun ps bs i => procUserBlocks_hasCall bs ps i,
   extractDisplayMessages_toolCall⟩

/-- C2 witness: the amended theorem applied to the counterexample
input. -/
theorem c2_witness :
    callResult (procUserBlocks [APart.toolCall "t1" "Read" "p" none]
        [UBlock.tool_result "t1" "r1" false,
         UBlock.tool_result "t1" "r2" false]) "t1"
      = some ("r2", false) := by
  have h := c2_tool_result_last_wins.1
      [APart.toolCall "t1" "Read" "p" none]
      [UBlock.tool_result "t1" "r1" false,
       UBlock.tool_result "t1" "r2" false]
      "t1" (by decide)
  exact h.trans (by decide)

/-- C3: a tool result whose identifier matches no tracked tool call
leaves the tracked content unchanged; the whole turn's event sequence
is the same as if the orphan block had never arrived (so the orphan is
absent from every snapshot delivered to readers); and every turn —
with or without orphans, with or without an error — still ends with
its terminal `close` event. -/
theorem c3_orphan_result_dropped :
    (∀ (ps : List APart) (id c : String) (e : Bool),
        hasCall ps id = false → attachResult ps id c e = ps)
    ∧ (∀ (sid : Option String) (ms1 ms2 : List SDKMsg) (id c : String)
        (e : Bool),
        hasCall (procMsgs ⟨[], sid⟩ ms1).1.parts id = false →
        runTurn sid (ms1 ++ SDKMsg.user [UBlock.tool_result id c e] :: ms2)
            none
          = runTurn sid (ms1 ++ SDKMsg.user [] :: ms2) none)
    ∧ (∀ (sid : Option String) (msgs : List SDKMsg) (err : Option String),
        (runTurn sid msgs err).getLast? = some Ev.close) := by
  refine ⟨attachResult_no_match, ?_, runTurn_getLast⟩
  intro sid ms1 ms2 id c e h
  have key : procMsg (procMsgs ⟨[], sid⟩ ms1).1
        (SDKMsg.user [UBlock.tool_result id c e])
      = procMsg (procMsgs ⟨[], sid⟩ ms1).1 (SDKMsg.user []) := by
    simp [procMsg, procUserBlocks, attachResult_no_match _ _ _ _ h]
  have hmsgs : procMsgs ⟨[], sid⟩
        (ms1 ++ SDKMsg.user [UBlock.tool_result id c e] :: ms2)
      = procMsgs ⟨[], sid⟩ (ms1 ++ SDKMsg.user [] :: ms2) := by
    rw [procMsgs_append, procMsgs_append]
    simp [procMsgs, key]
  simp [runTurn, hmsgs]

/-- C3 witness: the orphan-equivalence applied at a concrete turn. -/
theorem c3_witness :
    runTurn none [SDKMsg.assistant [CBlock.text "a"],
        SDKMsg.user [UBlock.tool_result "zz" "r" false]] none
      = runTurn none [SDKMsg.assistant [CBlock.text "a"],
        SDKMsg.user []] none := by
  have h := c3_orphan_result_dropped.2.1 none
      [SDKMsg.assistant [CBlock.text "a"]] [] "zz" "r" false (by decide)
  simpa using h

/-- C4 counterexample: with turn 1's event list `[close]` and turn 2's
`[textDelta "hi", close]`, the delivery that plays the whole of turn 2
before turn 1's terminal event is a valid interleaving of the two
per-request response streams (each `POST /api/chat` invocation creates
its own query and streams independently, with no cross-request state),
contradicting "every event of the second turn is delivered strictly
after the first turn's terminal event: the two turns' event sequences
never interleave". -/
theorem c4_counterexample :
    isMerge [Ev.close] [Ev.textDelta "hi", Ev.close]
        [Ev.textDelta "hi", Ev.close, Ev.close] = true
    ∧ [Ev.textDelta "hi", Ev.close, Ev.close].take 2
        = [Ev.textDelta "hi", Ev.close] := by
  exact ⟨by decide, by decide⟩

/-- C4 (amended): a second submission while a turn is in flight is
accepted — the handler consults no in-flight state, so whenever a user
message extracts, it creates its own query and streams that turn's
events — but the backend imposes no cross-turn ordering: for any two
turns' event lists, the interleaving that delivers the entire second
turn before the first turn's terminal event is possible. -/
theorem c4_accept_without_serialization :
    (∀ (body : ChatRequestBody) (msgs : List SDKMsg) (err : Option String),
        extractUserMessage (body.commands.getD []) ≠ none →
        handleChat body msgs err
          = Except.ok (runTurn (body.state.bind (·.sessionId)) msgs err))
    ∧ (∀ (t1 t2 : List Ev), isMerge t1 t2 (t2 ++ t1) = true) := by
  constructor
  · intro body msgs err h
    rw [handleChat]
    cases hx : extractUserMessage (body.commands.getD []) with
    | none => exact absurd hx h
    | some ex => rfl
  · exact isMerge_right_then_left

/-- C4 witness: the acceptance branch at a concrete request. -/
theorem c4_witness :
    handleChat ⟨some ⟨some "s1"⟩, some [⟨"add-message",
        some ⟨some [⟨"text", some "hi", none⟩], none⟩⟩]⟩ [] none
      = Except.ok (runTurn (some "s1") [] none) :=
  c4_accept_without_serialization.1 _ [] none (by decide)

/-- C5 (evaluating the code at the failing configuration): no request
ever issues a read or delete of a squoze compaction-marker key — the
handler's Redis trace consists of the HUD reads and, at most, squoze
`SETEX` writes.  A marker present when the next turn on the
conversation is submitted is therefore neither read before the turn is
forwarded nor deleted afterwards; it merely ages out via its TTL. -/
theorem c5_squoze_never_consumed (raw : Option String) (ts : String)
    (msgs : List SDKMsg) :
    squozeConsumes (handlerRedisOps raw ts msgs) = [] := by
  show squozeConsumes
      (hudGets ++ (msgs.map (msgRedisOps (normSid raw) ts)).flatten) = []
  rw [squozeConsumes_append]
  have h1 : squozeConsumes hudGets = [] := by decide
  have h2 : squozeConsumes
      ((msgs.map (msgRedisOps (normSid raw) ts)).flatten) = [] := by
    refine filter_flatten_eq_nil _ _ ?_
    intro l hl
    rcases List.mem_map.mp hl with ⟨m, _, rfl⟩
    exact squozeConsumes_msg (normSid raw) ts m
  rw [h1, h2]
  rfl

/-- C6: when the submitting request carried a truthy session id and the
raw stream reports a `compact_boundary` system notice with metadata
`(trigger, preTokens)`, the request's Redis trace contains a `SETEX` of
the marker `{trigger, pre_tokens, timestamp}` under the conversation's
squoze key with expiry 3600 seconds. -/
theorem c6_squoze_marker_persisted (raw : Option String)
    (sid ts tr : String) (pt : Nat) (msgs : List SDKMsg)
    (h1 : normSid raw = some sid)
    (h2 : SDKMsg.system "compact_boundary" (some (tr, pt)) ∈ msgs) :
    ROp.setex (squozeKey sid) 3600 ⟨some tr, some pt, ts⟩
      ∈ handlerRedisOps raw ts msgs := by
  show _ ∈ hudGets ++ (msgs.map (msgRedisOps (normSid raw) ts)).flatten
  refine List.mem_append_right _ ?_
  refine List.mem_flatten.mpr
    ⟨msgRedisOps (normSid raw) ts
        (SDKMsg.system "compact_boundary" (some (tr, pt))),
     List.mem_map_of_mem _ h2, ?_⟩
  rw [h1]
  simp [msgRedisOps, squozeTTL]

/-- C6 witness: a compacting turn on a resumed conversation. -/
theorem c6_witness :
    ROp.setex (squozeKey "abc") 3600 ⟨some "auto", some 9000, "T1"⟩
      ∈ handlerRedisOps (some "abc") "T1"
          [SDKMsg.system "compact_boundary" (some ("auto", 9000))] :=
  c6_squoze_marker_persisted (some "abc") "abc" "T1" "auto" 9000 _
    (by decide) (by decide)

/-- C7: the session listing is pairwise descending in `updated_at`, its
length never exceeds the effective limit, an absent/unparsable limit
defaults to 20, and every returned entry comes from one of the files
with its id equal to the file's session id and its title equal to the
specification-side title (leading text of the first user message
truncated to 50 characters, session-id prefix fallback). -/
theorem c7_session_listing (files : List SessFile) (q : Option Nat) :
    List.Pairwise sessGE (listSessions files q)
    ∧ (listSessions files q).length ≤ effLimit q
    ∧ effLimit none = 20
    ∧ (∀ e ∈ listSessions files q,
        ∃ f ∈ files, buildSession f = some e ∧ e.id = f.name
          ∧ e.title = titleSpec f) := by
  refine ⟨?_, ?_, rfl, ?_⟩
  · haveI : IsTotal SessionEntry sessGE := ⟨sessGE_total⟩
    haveI : IsTrans SessionEntry sessGE := ⟨sessGE_trans⟩
    have hs : List.Sorted sessGE
        ((files.filterMap buildSession).insertionSort sessGE) :=
      List.sorted_insertionSort sessGE _
    exact List.Pairwise.sublist (List.take_sublist _ _) hs
  · show (((files.filterMap buildSession).insertionSort sessGE).take
        (effLimit q)).length ≤ effLimit q
    rw [List.length_take]
    exact min_le_left _ _
  · intro e he
    have he2 : e ∈ (files.filterMap buildSession).insertionSort sessGE :=
      List.Sublist.mem he (List.take_sublist _ _)
    have he3 : e ∈ files.filterMap buildSession :=
      (List.perm_insertionSort sessGE _).mem_iff.mp he2
    rcases List.mem_filterMap.mp he3 with ⟨f, hf, hbuild⟩
    obtain ⟨hid, htitle⟩ := buildSession_entry f e hbuild
    exact ⟨f, hf, hbuild, hid, htitle⟩

/-- C7 witness: provenance and title of a concrete listing entry. -/
theorem c7_witness :
    ∃ f ∈ demoFiles, buildSession f = some demoEntry
      ∧ demoEntry.id = f.name ∧ demoEntry.title = titleSpec f :=
  (c7_session_listing demoFiles none).2.2.2 demoEntry (by decide)

/-- C8: a turn on which the raw stream raised after delivering `msgs`
produces exactly the clean run's events up to (but excluding) its final
state flush and `close` — the partial content is preserved and emitted
once, with no retry — followed by a single visible error notice
appended through the same `appendText` channel as the assistant's own
text, and then the terminal `close`. -/
theorem c8_error_appended_to_partial (sid : Option String)
    (msgs : List SDKMsg) (e : String) :
    runTurn sid msgs (some e)
      = (runTurn sid msgs none).dropLast.dropLast
          ++ [Ev.textDelta (errText e), Ev.close] := by
  have h1 : runTurn sid msgs none
      = (Ev.stateFull [] sid :: (procMsgs ⟨[], sid⟩ msgs).2)
          ++ [Ev.stateFull (procMsgs ⟨[], sid⟩ msgs).1.parts
                (procMsgs ⟨[], sid⟩ msgs).1.sessionId, Ev.close] := by
    simp [runTurn]
  rw [h1, dropLast_append_two]
  simp [runTurn]

/-- C9: a submission whose text parts all trim to the empty string and
which contains no image part extracts no user message, and the handler
answers with the error body without creating a query or producing any
turn event. -/
theorem c9_blank_submission_rejected :
    (∀ cmds : List MessageCommand,
        (∀ cmd ∈ cmds, ∀ p ∈ cmdParts cmd,
            (p.type = "text" → jsTrim (p.text.getD "") = "")
            ∧ p.type ≠ "image") →
        extractUserMessage cmds = none)
    ∧ (∀ (body : ChatRequestBody) (msgs : List SDKMsg)
        (err : Option String),
        (∀ cmd ∈ body.commands.getD [], ∀ p ∈ cmdParts cmd,
            (p.type = "text" → jsTrim (p.text.getD "") = "")
            ∧ p.type ≠ "image") →
        handleChat body msgs err
          = Except.error "No message found in commands") := by
  refine ⟨extractUserMessage_none, ?_⟩
  intro body msgs err h
  rw [handleChat, extractUserMessage_none _ h]

/-- C9 witness: a whitespace-only submission is rejected. -/
theorem c9_witness :
    handleChat ⟨none, some [⟨"add-message",
        some ⟨some [⟨"text", some "   ", none⟩], none⟩⟩]⟩ [] none
      = Except.error "No message found in commands" :=
  c9_blank_submission_rejected.2 _ [] none (by decide)

/-- C10: when the submitting request carried no truthy session id, the
request's Redis trace contains no squoze-marker write at all — even
when the stream reports a compaction boundary and the turn's final
`result` message later assigns a session id. -/
theorem c10_no_marker_without_session (raw : Option String) (ts : String)
    (msgs : List SDKMsg) (h : normSid raw = none) :
    squozeWrites (handlerRedisOps raw ts msgs) = [] := by
  show squozeWrites
      (hudGets ++ (msgs.map (msgRedisOps (normSid raw) ts)).flatten) = []
  rw [squozeWrites_append, h]
  have h1 : squozeWrites hudGets = [] := by decide
  have h2 : squozeWrites ((msgs.map (msgRedisOps none ts)).flatten) = [] := by
    refine filter_flatten_eq_nil _ _ ?_
    intro l hl
    rcases List.mem_map.mp hl with ⟨m, _, rfl⟩
    exact squozeWrites_msg_none ts m
  rw [h1, h2]
  rfl

/-- C10 witness: a first-turn compaction boundary whose `result` later
assigns a session id still writes nothing. -/
theorem c10_witness :
    squozeWrites (handlerRedisOps none "T1"
        [SDKMsg.system "compact_boundary" (some ("auto", 9000)),
         SDKMsg.result "new-session-id"]) = [] :=
  c10_no_marker_without_session none "T1"
    [SDKMsg.system "compact_boundary" (some ("auto", 9000)),
     SDKMsg.result "new-session-id"] (by decide)
